import Mathlib

/-!
Verification of the GazooRazoo telemetry ingestion and analysis pipeline.

The definitions below are shallow embeddings of the TypeScript source:

* `splitLines` models `text.split(/\r\n|\n|\r/)`, used on whole files in
  `parseCSV` and on each decoded chunk in `scanTelemetryDrivers` and
  `parseTelemetryForDriver` (src/src/components/DataUpload.tsx).
* `chunksBy`, `chunkedLinesAux`, `chunkedBlocks` and `scanLinesD` model the
  10 MiB chunked reading loop of those two functions: each chunk is decoded,
  prepended with the carried-over partial line, split into lines, and the
  trailing element is held back unless the chunk is the last one; the first
  line of the first chunk is skipped as the header.
* `scanTelemetryDrivers`, `extractDriver`, `dedupFirst`, `numLe` and `sortBy`
  model driver discovery; `wholeFileDrivers` is the whole-file restatement
  used to compare against the chunked scan.
* `parseRow`, `applyChan`, `aggStep` and `parseTelemetryForDriver` model the
  per-driver assembler, with `new Date(s).getTime()` kept as a parameter
  `pd` of the theorems.
* `interpolate`, `getLapTelemetry`, `brakeSegments`,
  `getSignificantBrakingSegment` model the derived-segment analyzer of the
  shared telemetry utility module.
* `optimalShiftRPM`, `countShift` and `generateReportCounters` model the
  gear-efficiency evaluator of TrackGrip.tsx.
* `parseWeatherLine` and `parseWeather` model the weather CSV decoder.

Files are modelled as `List Char` (single-byte text, which the CSV inputs
are). Numeric channel values are exact rationals; a JavaScript NaN channel
value is represented as 0 where a number is required and as `none` where the
model keeps the option open - no claim below depends on NaN propagation.
JavaScript stable `Array.sort` is modelled by the stable insertion sort
`sortBy`, which agrees with every stable sort for the comparators used here.
-/

def splitLines : List Char → List (List Char)
  | [] => [[]]
  | '\r' :: '\n' :: rest => [] :: splitLines rest
  | '\n' :: rest => [] :: splitLines rest
  | '\r' :: rest => [] :: splitLines rest
  | c :: rest => (splitLines rest).modifyHead (c :: ·)

def chunksByFuel (n : ℕ) : ℕ → List Char → List (List Char)
  | 0, _ => []
  | _ + 1, [] => []
  | fuel + 1, c :: rest => (c :: rest.take n) :: chunksByFuel n fuel (rest.drop n)

def chunksBy (n : ℕ) (l : List Char) : List (List Char) :=
  chunksByFuel n l.length l

def chunkedLinesAux (leftover : List Char) : List (List Char) → List (List (List Char))
  | [] => []
  | [c] => [splitLines (leftover ++ c)]
  | c :: c2 :: rest =>
    (splitLines (leftover ++ c)).dropLast ::
      chunkedLinesAux ((splitLines (leftover ++ c)).getLastD []) (c2 :: rest)

def chunkedBlocks (C : ℕ) (file : List Char) : List (List (List Char)) :=
  chunkedLinesAux [] (chunksBy (C - 1) file)

def chunkedLines (C : ℕ) (file : List Char) : List (List Char) :=
  (chunkedBlocks C file).flatten

def isWS (c : Char) : Bool :=
  c = ' ' ∨ c = '\t' ∨ c = '\n' ∨ c = '\r' ∨ c = '\x0b' ∨ c = '\x0c'

def jsTrim (l : List Char) : List Char :=
  ((l.dropWhile isWS).reverse.dropWhile isWS).reverse

def scanLinesD (C : ℕ) (file : List Char) : List (List Char) :=
  match chunkedBlocks C file with
  | [] => []
  | b :: bs => b.drop 1 ++ bs.flatten

def neLines (ls : List (List Char)) : List (List Char) :=
  ls.filter (fun l => !l.isEmpty)

def afterLastComma (l : List Char) : Option (List Char) :=
  let r := l.reverse.takeWhile (fun c => c ≠ ',')
  if r.length = l.length then none else some r.reverse

def jsFloatAcceptsCore (l : List Char) : Bool :=
  match l with
  | [] => false
  | c :: rest =>
    c.isDigit || (c = '.' && (match rest with | d :: _ => d.isDigit | [] => false)) ||
      "Infinity".toList.isPrefixOf (c :: rest)

def jsFloatAccepts (l : List Char) : Bool :=
  match l with
  | '+' :: rest => jsFloatAcceptsCore rest
  | '-' :: rest => jsFloatAcceptsCore rest
  | _ => jsFloatAcceptsCore l

def extractDriver (line : List Char) : Option (List Char) :=
  if jsTrim line = [] then none
  else
    match afterLastComma line with
    | none => none
    | some s =>
      let val := jsTrim s
      if val ≠ [] ∧ val.length < 10 ∧ jsFloatAccepts val then some val else none

def dedupFirstAux (seen : List (List Char)) : List (List Char) → List (List Char)
  | [] => []
  | x :: rest =>
    if x ∈ seen then dedupFirstAux seen rest else x :: dedupFirstAux (x :: seen) rest

def dedupFirst (l : List (List Char)) : List (List Char) :=
  dedupFirstAux [] l

def digitsToNat (ds : List Char) : ℕ :=
  ds.foldl (fun acc d => acc * 10 + (d.toNat - '0'.toNat)) 0

def jsParseInt (l : List Char) : Option ℤ :=
  let core : List Char → Option ℤ := fun m =>
    let ds := m.takeWhile Char.isDigit
    if ds = [] then none else some (digitsToNat ds)
  match l with
  | '+' :: rest => core rest
  | '-' :: rest => (core rest).map (fun z => -z)
  | _ => core l

def numLe (a b : List Char) : Bool :=
  match jsParseInt a, jsParseInt b with
  | some x, some y => decide (x ≤ y)
  | _, _ => true

def insertSorted {α : Type} (le : α → α → Bool) (x : α) : List α → List α
  | [] => [x]
  | y :: rest => if le x y then x :: y :: rest else y :: insertSorted le x rest

def sortBy {α : Type} (le : α → α → Bool) (l : List α) : List α :=
  l.foldr (insertSorted le) []

def scanTelemetryDrivers (C : ℕ) (file : List Char) : List (List Char) :=
  sortBy numLe (dedupFirst ((scanLinesD C file).filterMap extractDriver))

def wholeFileDrivers (file : List Char) : List (List Char) :=
  sortBy numLe (dedupFirst (((splitLines file).drop 1).filterMap extractDriver))

structure TelemetryPoint where
  timestamp : ℤ
  speed : Option ℚ
  rpm : Option ℚ
  gear : Option ℚ
  throttle : Option ℚ
  brake : Option ℚ
  steering : Option ℚ
deriving DecidableEq

structure RawSample where
  t : List Char
  n : List Char
  v : ℚ
deriving DecidableEq

def expPart (r : List Char) : Option ℤ :=
  let digits : List Char → Option ℤ := fun d =>
    let ds := d.takeWhile Char.isDigit
    if ds = [] then none else some (digitsToNat ds)
  match r with
  | '+' :: d => digits d
  | '-' :: d => (digits d).map (fun z => -z)
  | d => digits d

def jsParseFloatQ (l : List Char) : Option ℚ :=
  let signed : List Char → Option ℚ := fun m =>
    let ip := m.takeWhile Char.isDigit
    let r1 := m.dropWhile Char.isDigit
    let fr : List Char × List Char :=
      match r1 with
      | '.' :: r => (r.takeWhile Char.isDigit, r.dropWhile Char.isDigit)
      | _ => ([], r1)
    if ip = [] ∧ fr.1 = [] then none
    else
      let base : ℚ := (digitsToNat ip : ℚ) + (digitsToNat fr.1 : ℚ) / ((10 : ℚ) ^ fr.1.length)
      match fr.2 with
      | 'e' :: r =>
        match expPart r with
        | some e => some (base * (10 : ℚ) ^ e)
        | none => some base
      | 'E' :: r =>
        match expPart r with
        | some e => some (base * (10 : ℚ) ^ e)
        | none => some base
      | _ => some base
  match l with
  | '+' :: rest => signed rest
  | '-' :: rest => (signed rest).map (fun q => -q)
  | _ => signed l

def parseRow (driverId : List Char) (line0 : List Char) : Option RawSample :=
  let line := jsTrim line0
  if line = [] then none
  else
    match afterLastComma line with
    | none => none
    | some s =>
      if jsTrim s ≠ driverId then none
      else
        let cols := line.splitOn ','
        if cols.length < 11 then none
        else
          let name := cols.getD 8 []
          let value := (jsParseFloatQ (cols.getD 9 [])).getD 0
          let ts := cols.getD 10 []
          if ts = [] then none
          else some ⟨ts, name, value⟩

def emptyPoint (ts : ℤ) : TelemetryPoint :=
  ⟨ts, none, none, none, none, none, none⟩

def applyChan (e : TelemetryPoint) (n : List Char) (v : ℚ) : TelemetryPoint :=
  if n = "speed".toList then { e with speed := some v }
  else if n = "nmot".toList then { e with rpm := some v }
  else if n = "gear".toList then { e with gear := some v }
  else if n = "ath".toList then { e with throttle := some (v / 100) }
  else if n = "pbrake_f".toList then { e with brake := some (v / 100) }
  else if n = "Steering_Angle".toList then { e with steering := some v }
  else e

def lookupT (t : List Char) : List (List Char × TelemetryPoint) → Option TelemetryPoint
  | [] => none
  | (k, e) :: rest => if k = t then some e else lookupT t rest

def updateT (t : List Char) (f : TelemetryPoint → TelemetryPoint) :
    List (List Char × TelemetryPoint) → List (List Char × TelemetryPoint)
  | [] => []
  | (k, e) :: rest => if k = t then (k, f e) :: rest else (k, e) :: updateT t f rest

def aggStep (pd : List Char → ℤ) (m : List (List Char × TelemetryPoint)) (r : RawSample) :
    List (List Char × TelemetryPoint) :=
  match lookupT r.t m with
  | none => m ++ [(r.t, applyChan (emptyPoint (pd r.t)) r.n r.v)]
  | some _ => updateT r.t (fun e => applyChan e r.n r.v) m

def aggregateRaws (pd : List Char → ℤ) (rs : List RawSample) :
    List (List Char × TelemetryPoint) :=
  rs.foldl (aggStep pd) []

def tsLe (p q : TelemetryPoint) : Bool := decide (p.timestamp ≤ q.timestamp)

def parseTelemetryForDriver (pd : List Char → ℤ) (C : ℕ) (file : List Char)
    (driverId : List Char) : List TelemetryPoint :=
  sortBy tsLe ((aggregateRaws pd ((scanLinesD C file).filterMap (parseRow driverId))).map Prod.snd)

structure Pt where
  timestamp : ℚ
  brake : ℚ
  throttle : ℚ
deriving DecidableEq

structure LapData where
  lap : ℤ
  time : ℚ
  timestamp : ℚ
deriving DecidableEq

def interpolate (data : List ℚ) (targetLength : ℕ) : List ℚ :=
  if data.length < 2 then List.replicate targetLength 0
  else
    List.map (fun (i : ℕ) =>
      let step : ℚ := ((data.length : ℚ) - 1) / ((targetLength : ℚ) - 1)
      let index : ℚ := (i : ℚ) * step
      let lower : ℤ := ⌊index⌋
      let upper : ℤ := ⌈index⌉
      let weight : ℚ := index - lower
      if (data.length : ℤ) ≤ upper then data.getD (data.length - 1) 0
      else data.getD lower.toNat 0 * (1 - weight) + data.getD upper.toNat 0 * weight)
      (List.range targetLength)

def getLapTelemetry (telemetry : List Pt) (laps : List LapData) (lapNumber : ℤ) : List Pt :=
  match laps.find? (fun l => decide (l.lap = lapNumber)) with
  | none => []
  | some currentLap =>
    let startTime := currentLap.timestamp
    let endTime :=
      match laps.find? (fun l => decide (l.lap = lapNumber + 1)) with
      | some nextLap => nextLap.timestamp
      | none => startTime + currentLap.time * 1000
    telemetry.filter (fun p => decide (p.timestamp ≥ startTime) && decide (p.timestamp < endTime))

def lapEnd (laps : List LapData) (n : ℤ) (cur : LapData) : ℚ :=
  match laps.find? (fun l => decide (l.lap = n + 1)) with
  | some nextLap => nextLap.timestamp
  | none => cur.timestamp + cur.time * 1000

def exLaps : List LapData :=
  [⟨1, 100, 0⟩, ⟨2, 105, 100000⟩, ⟨3, 95, 205000⟩, ⟨4, 90, 300000⟩]

def brakeSegsGo : List Pt → List Pt → List (List Pt)
  | [], cur => if 5 < cur.length then [cur.reverse] else []
  | p :: rest, cur =>
    if 10 < p.brake then brakeSegsGo rest (p :: cur)
    else if 5 < cur.length then cur.reverse :: brakeSegsGo rest []
    else brakeSegsGo rest []

def brakeSegments (l : List Pt) : List (List Pt) := brakeSegsGo l []

def qmax : List ℚ → ℚ
  | [] => 0
  | x :: xs => xs.foldl max x

def peakBrake (s : List Pt) : ℚ := qmax (s.map (fun p => p.brake))

def bestByPeak : List (List Pt) → Option (List Pt)
  | [] => none
  | s :: rest =>
    some (rest.foldl (fun prev cur => if peakBrake prev < peakBrake cur then cur else prev) s)

def getSignificantBrakingSegment (l : List Pt) : List ℚ :=
  match bestByPeak (brakeSegments l) with
  | none => []
  | some best => interpolate (best.map (fun p => p.brake)) 100

def exBrakeRun : List Pt :=
  [⟨0, 12, 0⟩, ⟨1, 12, 0⟩, ⟨2, 12, 0⟩, ⟨3, 12, 0⟩, ⟨4, 50, 0⟩, ⟨5, 12, 0⟩]

structure TSample where
  speed : ℚ
  gear : ℚ
  rpm : ℚ
deriving DecidableEq

def optimalShiftRPM (fromGear toGear : ℚ) : Option ℚ :=
  if fromGear = 1 ∧ toGear = 2 then some 6930
  else if fromGear = 2 ∧ toGear = 3 then some 7147
  else if fromGear = 3 ∧ toGear = 4 then some 7171
  else none

def SHIFT_TOLERANCE_RPM : ℚ := 500

def DOWN_SHIFT_EARLY_MAX : ℚ := 3500

def DOWN_SHIFT_LATE_MIN : ℚ := 8000

structure ShiftCounters where
  total : ℕ
  optimal : ℕ
  early : ℕ
  late : ℕ
deriving DecidableEq

def countShift (prev curr : TSample) (k : ShiftCounters) : ShiftCounters :=
  if curr.gear > prev.gear ∧ prev.gear > 0 ∧ curr.gear - prev.gear = 1 then
    let k1 := { k with total := k.total + 1 }
    match optimalShiftRPM prev.gear curr.gear with
    | some optimalRpm =>
      let diff := prev.rpm - optimalRpm
      if |diff| ≤ SHIFT_TOLERANCE_RPM then { k1 with optimal := k1.optimal + 1 }
      else if diff < -SHIFT_TOLERANCE_RPM then { k1 with early := k1.early + 1 }
      else if diff > SHIFT_TOLERANCE_RPM then { k1 with late := k1.late + 1 }
      else k1
    | none => k1
  else if curr.gear < prev.gear ∧ prev.gear - curr.gear = 1 then
    let k1 := { k with total := k.total + 1 }
    if prev.rpm < DOWN_SHIFT_EARLY_MAX then { k1 with early := k1.early + 1 }
    else if prev.rpm > DOWN_SHIFT_LATE_MIN then { k1 with late := k1.late + 1 }
    else { k1 with optimal := k1.optimal + 1 }
  else k

def generateReportCounters (history : List TSample) : ShiftCounters :=
  (history.zip history.tail).foldl (fun k pc => countShift pc.1 pc.2 k) ⟨0, 0, 0, 0⟩

structure WeatherSample where
  timestamp : Option ℤ
  airTemp : Option ℚ
  trackTemp : Option ℚ
  humidity : Option ℚ
  rain : Option ℚ
deriving DecidableEq

def parseWeatherLine (pd : List Char → ℤ) (line0 : List Char) : Option WeatherSample :=
  let line := jsTrim line0
  if line = [] then none
  else
    let cols := line.splitOn ';'
    if cols.length < 4 then none
    else some {
      timestamp := (cols[1]?).map pd
      airTemp := (cols[2]?).bind jsParseFloatQ
      trackTemp := (cols[3]?).bind jsParseFloatQ
      humidity := (cols[4]?).bind jsParseFloatQ
      rain := (cols[8]?).bind jsParseFloatQ }

def parseWeather (pd : List Char → ℤ) (text : List Char) : List WeatherSample :=
  ((splitLines text).drop 1).filterMap (parseWeatherLine pd)

theorem splitLines_cons_of_ne (c : Char) (rest : List Char)
    (h1 : c ≠ '\n') (h2 : c ≠ '\r') :
    splitLines (c :: rest) = (splitLines rest).modifyHead (c :: ·) := by
  rw [splitLines.eq_def]
  split
  · simp_all
  · simp_all
  · simp_all
  · simp_all
  · rename_i heq
    obtain ⟨rfl, rfl⟩ := List.cons_eq_cons.mp heq
    rfl

theorem splitLines_r_cons (c : Char) (rest : List Char) (h : c ≠ '\n') :
    splitLines ('\r' :: c :: rest) = [] :: splitLines (c :: rest) := by
  rw [splitLines.eq_def]
  split
  · simp_all
  · rename_i heq
    obtain ⟨-, h2⟩ := List.cons_eq_cons.mp heq
    exact absurd (List.cons_eq_cons.mp h2).1 h
  · simp_all
  · rename_i heq
    obtain ⟨-, h2⟩ := List.cons_eq_cons.mp heq
    rw [h2]
  · rename_i hs3 heq
    obtain ⟨h3, -⟩ := List.cons_eq_cons.mp heq
    exact absurd h3.symm hs3

theorem splitLines_ne_nil (s : List Char) : splitLines s ≠ [] := by
  induction s using splitLines.induct with
  | case1 => simp [splitLines]
  | case2 rest ih => rw [splitLines]; simp
  | case3 rest ih => rw [splitLines]; simp
  | case4 rest hne ih =>
    match rest, hne with
    | [], _ => simp [splitLines]
    | c :: rest2, hne =>
      have hc : c ≠ '\n' := fun h => hne rest2 (by rw [h])
      rw [splitLines_r_cons c rest2 hc]
      simp
  | case5 c rest h1 h2 h3 ih =>
    rw [splitLines_cons_of_ne c rest h2 h3]
    rcases he : splitLines rest with _ | ⟨a, l⟩
    · exact absurd he ih
    · simp [List.modifyHead]

theorem splitLines_singleton {s x : List Char} (h : splitLines s = [x]) : s = x := by
  induction s using splitLines.induct generalizing x with
  | case1 =>
    rw [splitLines] at h
    exact (List.cons_eq_cons.mp h).1
  | case2 rest ih =>
    rw [splitLines] at h
    exact absurd (List.cons_eq_cons.mp h).2 (splitLines_ne_nil rest)
  | case3 rest ih =>
    rw [splitLines] at h
    exact absurd (List.cons_eq_cons.mp h).2 (splitLines_ne_nil rest)
  | case4 rest hne ih =>
    match rest, hne with
    | [], _ => simp [splitLines] at h
    | c :: rest2, hne =>
      have hc : c ≠ '\n' := fun hcc => hne rest2 (by rw [hcc])
      rw [splitLines_r_cons c rest2 hc] at h
      exact absurd (List.cons_eq_cons.mp h).2 (splitLines_ne_nil (c :: rest2))
  | case5 c rest h1 h2 h3 ih =>
    rw [splitLines_cons_of_ne c rest h2 h3] at h
    rcases he : splitLines rest with _ | ⟨a, l⟩
    · exact absurd he (splitLines_ne_nil rest)
    · rw [he] at h
      simp only [List.modifyHead] at h
      obtain ⟨h4, h5⟩ := List.cons_eq_cons.mp h
      subst h5
      have := ih (x := a) (by rw [he])
      rw [this, h4]

theorem splitLines_noTerm (s : List Char)
    (h : ∀ c ∈ s, c ≠ '\n' ∧ c ≠ '\r') : splitLines s = [s] := by
  induction s with
  | nil => rfl
  | cons c rest ih =>
    have hc := h c (by simp)
    rw [splitLines_cons_of_ne c rest hc.1 hc.2, ih (fun x hx => h x (by simp [hx]))]
    rfl

theorem lines_noTerm (s : List Char) :
    ∀ l ∈ splitLines s, ∀ c ∈ l, c ≠ '\n' ∧ c ≠ '\r' := by
  induction s using splitLines.induct with
  | case1 =>
    intro l hl
    rw [splitLines] at hl
    simp at hl
    simp [hl]
  | case2 rest ih =>
    intro l hl
    rw [splitLines] at hl
    rcases List.mem_cons.mp hl with rfl | h
    · simp
    · exact ih l h
  | case3 rest ih =>
    intro l hl
    rw [splitLines] at hl
    rcases List.mem_cons.mp hl with rfl | h
    · simp
    · exact ih l h
  | case4 rest hne ih =>
    intro l hl
    match rest, hne, ih with
    | [], _, _ =>
      simp [splitLines] at hl
      simp [hl]
    | c :: rest2, hne, ih =>
      have hc : c ≠ '\n' := fun h => hne rest2 (by rw [h])
      rw [splitLines_r_cons c rest2 hc] at hl
      rcases List.mem_cons.mp hl with rfl | h
      · simp
      · exact ih l h
  | case5 c rest h1 h2 h3 ih =>
    intro l hl
    rw [splitLines_cons_of_ne c rest h2 h3] at hl
    rcases he : splitLines rest with _ | ⟨x, L⟩
    · exact absurd he (splitLines_ne_nil rest)
    · rw [he, List.modifyHead_cons] at hl
      rcases List.mem_cons.mp hl with rfl | h
      · intro ch hch
        rcases List.mem_cons.mp hch with rfl | h2
        · exact ⟨h2, h3⟩
        · exact ih (x) (by rw [he]; simp) ch h2
      · exact ih l (by rw [he]; simp [h])

theorem modifyHead_modifyHead (f g : List Char → List Char) (l : List (List Char)) :
    (l.modifyHead g).modifyHead f = l.modifyHead (fun x => f (g x)) := by
  cases l <;> simp [List.modifyHead]

theorem mem_of_getLast?_eq {l : List Char} {a : Char} (h : l.getLast? = some a) : a ∈ l := by
  obtain ⟨hne, heq⟩ := List.mem_getLast?_eq_getLast (show a ∈ l.getLast? by rw [h]; rfl)
  rw [heq]
  exact List.getLast_mem hne

theorem getLast?_cons_of_ne_nil (c : Char) {s : List Char} (h : s ≠ []) :
    (c :: s).getLast? = s.getLast? := by
  cases s with
  | nil => exact absurd rfl h
  | cons d s3 => exact List.getLast?_cons_cons

theorem getLastD_cons' (x d : List Char) (L : List (List Char)) :
    ((x :: L).getLast?).getD d = (L.getLast?).getD x := by
  cases L with
  | nil => rfl
  | cons y L2 =>
    rw [List.getLast?_cons_cons, List.getLast?_eq_getLast_of_ne_nil (List.cons_ne_nil y L2)]
    rfl

theorem splitLines_append_no_straddle :
    ∀ (s t : List Char), ¬(s.getLast? = some '\r' ∧ t.head? = some '\n') →
    splitLines (s ++ t) =
      (splitLines s).dropLast ++
        (splitLines t).modifyHead (fun x => (splitLines s).getLastD [] ++ x) := by
  intro s
  induction s using splitLines.induct with
  | case1 =>
    intro t _
    rcases ht : splitLines t with _ | ⟨x, L⟩
    · exact absurd ht (splitLines_ne_nil t)
    · rw [List.nil_append, ht]
      simp [splitLines, List.modifyHead]
  | case2 s2 ih =>
    intro t hno
    have hno2 : ¬(s2.getLast? = some '\r' ∧ t.head? = some '\n') := by
      rcases s2 with _ | ⟨d, s3⟩
      · simp
      · rintro ⟨hl, hn⟩
        exact hno ⟨by rw [List.getLast?_cons_cons, List.getLast?_cons_cons]; exact hl, hn⟩
    rcases he : splitLines s2 with _ | ⟨x, L⟩
    · exact absurd he (splitLines_ne_nil s2)
    · simp only [List.cons_append, splitLines, List.append_eq]
      rw [ih t hno2, he, List.dropLast_cons₂]
      simp [getLastD_cons']
  | case3 s2 ih =>
    intro t hno
    have hno2 : ¬(s2.getLast? = some '\r' ∧ t.head? = some '\n') := by
      rcases s2 with _ | ⟨d, s3⟩
      · simp
      · rintro ⟨hl, hn⟩
        exact hno ⟨by rw [List.getLast?_cons_cons]; exact hl, hn⟩
    rcases he : splitLines s2 with _ | ⟨x, L⟩
    · exact absurd he (splitLines_ne_nil s2)
    · simp only [List.cons_append, splitLines, List.append_eq]
      rw [ih t hno2, he, List.dropLast_cons₂]
      simp [getLastD_cons']
  | case4 s2 hne ih =>
    intro t hno
    match s2, hne, ih with
    | [], _, _ =>
      have htn : t.head? ≠ some '\n' := fun hh => hno ⟨rfl, hh⟩
      rcases t with _ | ⟨c2, t2⟩
      · simp [splitLines, List.modifyHead]
      · have hc2 : c2 ≠ '\n' := fun hc => htn (by rw [hc]; rfl)
        simp only [List.cons_append, List.nil_append]
        rw [splitLines_r_cons c2 t2 hc2]
        rcases ht : splitLines (c2 :: t2) with _ | ⟨x, L⟩
        · exact absurd ht (splitLines_ne_nil _)
        · simp [splitLines, List.modifyHead]
    | c :: rest2, hne, ih =>
      have hc : c ≠ '\n' := fun h => hne rest2 (by rw [h])
      have hno2 : ¬((c :: rest2).getLast? = some '\r' ∧ t.head? = some '\n') := by
        rintro ⟨hl, hn⟩
        exact hno ⟨by rw [List.getLast?_cons_cons]; exact hl, hn⟩
      rcases he : splitLines (c :: rest2) with _ | ⟨x, L⟩
      · exact absurd he (splitLines_ne_nil _)
      · have step : splitLines ('\r' :: c :: rest2 ++ t) = [] :: splitLines (c :: rest2 ++ t) := by
          rw [List.cons_append, List.cons_append]
          exact splitLines_r_cons c (rest2 ++ t) hc
        rw [step, splitLines_r_cons c rest2 hc, ih t hno2, he, List.dropLast_cons₂]
        simp [getLastD_cons']
  | case5 c s2 h1 h2 h3 ih =>
    intro t hno
    rw [List.cons_append, splitLines_cons_of_ne c (s2 ++ t) h2 h3,
      splitLines_cons_of_ne c s2 h2 h3]
    rcases he : splitLines s2 with _ | ⟨x, L⟩
    · exact absurd he (splitLines_ne_nil s2)
    rcases L with _ | ⟨y, L2⟩
    · have hsx : s2 = x := splitLines_singleton he
      have hxnt : ∀ ch ∈ x, ch ≠ '\n' ∧ ch ≠ '\r' :=
        fun ch hch => lines_noTerm s2 x (by rw [he]; exact List.mem_singleton_self x) ch hch
      have hno2 : ¬(s2.getLast? = some '\r' ∧ t.head? = some '\n') := by
        rintro ⟨hl, -⟩
        exact (hxnt '\r' (hsx ▸ mem_of_getLast?_eq hl)).2 rfl
      rw [ih t hno2, he]
      rcases ht : splitLines t with _ | ⟨z, M⟩
      · exact absurd ht (splitLines_ne_nil t)
      · simp [List.modifyHead]
    · have hs2ne : s2 ≠ [] := by
        intro hs
        rw [hs] at he
        simp [splitLines] at he
      have hno2 : ¬(s2.getLast? = some '\r' ∧ t.head? = some '\n') := by
        rintro ⟨hl, hn⟩
        exact hno ⟨by rw [getLast?_cons_of_ne_nil c hs2ne]; exact hl, hn⟩
      rw [ih t hno2, he, List.dropLast_cons₂]
      rcases ht : splitLines t with _ | ⟨z, M⟩
      · exact absurd ht (splitLines_ne_nil t)
      · simp [List.modifyHead, getLastD_cons']

theorem splitLines_append_straddle :
    ∀ (s t : List Char), s.getLast? = some '\r' → t.head? = some '\n' →
    splitLines (s ++ t) = (splitLines s).dropLast ++ (splitLines t).tail := by
  intro s
  induction s using splitLines.induct with
  | case1 =>
    intro t h1 h2
    simp at h1
  | case2 s2 ih =>
    intro t h1 h2
    rcases s2 with _ | ⟨d, s3⟩
    · simp at h1
    · rw [List.getLast?_cons_cons, List.getLast?_cons_cons] at h1
      rcases he : splitLines (d :: s3) with _ | ⟨x, L⟩
      · exact absurd he (splitLines_ne_nil _)
      · have ih' := ih t h1 h2
        rw [List.cons_append] at ih'
        simp only [List.cons_append, splitLines, List.append_eq]
        rw [ih', he, List.dropLast_cons₂]
        simp
  | case3 s2 ih =>
    intro t h1 h2
    rcases s2 with _ | ⟨d, s3⟩
    · simp at h1
    · rw [List.getLast?_cons_cons] at h1
      rcases he : splitLines (d :: s3) with _ | ⟨x, L⟩
      · exact absurd he (splitLines_ne_nil _)
      · have ih' := ih t h1 h2
        rw [List.cons_append] at ih'
        simp only [List.cons_append, splitLines, List.append_eq]
        rw [ih', he, List.dropLast_cons₂]
        simp
  | case4 s2 hne ih =>
    intro t h1 h2
    match s2, hne, ih with
    | [], _, _ =>
      rcases t with _ | ⟨c2, t2⟩
      · simp at h2
      · have hc2 : c2 = '\n' := by simpa using h2
        subst hc2
        simp only [List.cons_append, List.nil_append]
        rw [splitLines]
        simp [splitLines, List.modifyHead]
    | c :: rest2, hne, ih =>
      have hc : c ≠ '\n' := fun h => hne rest2 (by rw [h])
      rw [List.getLast?_cons_cons] at h1
      rcases he : splitLines (c :: rest2) with _ | ⟨x, L⟩
      · exact absurd he (splitLines_ne_nil _)
      · have step : splitLines ('\r' :: c :: rest2 ++ t) = [] :: splitLines (c :: rest2 ++ t) := by
          rw [List.cons_append, List.cons_append]
          exact splitLines_r_cons c (rest2 ++ t) hc
        rw [step, splitLines_r_cons c rest2 hc, ih t h1 h2, he, List.dropLast_cons₂]
        simp
  | case5 c s2 hs1 h2 h3 ih =>
    intro t h1 ht2
    rcases s2 with _ | ⟨d, s3⟩
    · simp at h1
      exact absurd h1 h3
    · rw [List.getLast?_cons_cons] at h1
      rcases he : splitLines (d :: s3) with _ | ⟨x, L⟩
      · exact absurd he (splitLines_ne_nil _)
      rcases L with _ | ⟨y, L2⟩
      · exfalso
        have hsx : d :: s3 = x := splitLines_singleton he
        have hxnt := lines_noTerm (d :: s3) x (by rw [he]; exact List.mem_singleton_self x)
        exact (hxnt '\r' (hsx ▸ mem_of_getLast?_eq h1)).2 rfl
      · rw [List.cons_append, splitLines_cons_of_ne c (d :: s3 ++ t) h2 h3,
          splitLines_cons_of_ne c (d :: s3) h2 h3, ih t h1 ht2, he, List.dropLast_cons₂]
        simp [List.modifyHead]

theorem getLastD_mem {α : Type} (l : List α) (d : α) (h : l ≠ []) : l.getLastD d ∈ l := by
  induction l with
  | nil => exact absurd rfl h
  | cons x L ih =>
    rcases L with _ | ⟨y, L2⟩
    · simp [List.getLastD]
    · rw [List.getLastD_cons]
      exact List.mem_cons_of_mem x (ih (List.cons_ne_nil y L2))

theorem getLastD_splitLines_noTerm (s : List Char) :
    ∀ c ∈ (splitLines s).getLastD [], c ≠ '\n' ∧ c ≠ '\r' :=
  fun c hc =>
    lines_noTerm s _ (getLastD_mem (splitLines s) [] (splitLines_ne_nil s)) c hc

theorem getLastD_splitLines_ends_r (s : List Char) (h : s.getLast? = some '\r') :
    (splitLines s).getLastD [] = [] := by
  have hs : s.dropLast ++ ['\r'] = s := List.dropLast_append_getLast? '\r' (by rw [h]; rfl)
  have hno : ¬(s.dropLast.getLast? = some '\r' ∧ (['\r'] : List Char).head? = some '\n') := by
    rintro ⟨-, hh⟩
    simp at hh
  have := splitLines_append_no_straddle s.dropLast ['\r'] hno
  rw [hs] at this
  rw [this, show splitLines ['\r'] = [[], []] from rfl, List.modifyHead_cons,
    List.getLastD_eq_getLast?, List.getLast?_append_of_ne_nil _ (by simp)]
  rfl

theorem neLines_append (a b : List (List Char)) :
    neLines (a ++ b) = neLines a ++ neLines b := by
  simp [neLines]

theorem chunkedAux_filter :
    ∀ (cs : List (List Char)), cs ≠ [] → ∀ leftover : List Char,
    neLines ((chunkedLinesAux leftover cs).flatten) =
      neLines (splitLines (leftover ++ cs.flatten)) := by
  intro cs
  induction cs with
  | nil => exact fun h => absurd rfl h
  | cons c rest ih =>
    intro _ leftover
    rcases rest with _ | ⟨c2, rest2⟩
    · simp [chunkedLinesAux]
    · have hrest : (c2 :: rest2) ≠ [] := List.cons_ne_nil c2 rest2
      set lc := leftover ++ c with hlc
      set g := (splitLines lc).getLastD [] with hg
      set jr := (c2 :: rest2).flatten with hjr
      have hassoc : leftover ++ (c :: c2 :: rest2).flatten = lc ++ jr := by
        simp [hlc, hjr, List.append_assoc]
      have step : chunkedLinesAux leftover (c :: c2 :: rest2) =
          (splitLines lc).dropLast :: chunkedLinesAux g (c2 :: rest2) := rfl
      rw [step, hassoc]
      have lhs : ((splitLines lc).dropLast :: chunkedLinesAux g (c2 :: rest2)).flatten =
          (splitLines lc).dropLast ++ (chunkedLinesAux g (c2 :: rest2)).flatten := by
        simp
      rw [lhs, neLines_append, ih hrest g]
      -- whether the chunk boundary splits a CRLF pair decides the shape
      by_cases hstr : lc.getLast? = some '\r' ∧ jr.head? = some '\n'
      · -- straddled boundary: leftover carried is empty, an empty line appears
        have hgnil : g = [] := hg ▸ getLastD_splitLines_ends_r lc hstr.1
        rw [splitLines_append_straddle lc jr hstr.1 hstr.2]
        rcases jr with _ | ⟨j0, jr2⟩
        · simp at hstr
        · have hj0 : j0 = '\n' := by
            have := hstr.2
            simpa using this
          subst hj0
          rw [hgnil, List.nil_append, neLines_append]
          rw [show splitLines ('\n' :: jr2) = [] :: splitLines jr2 from rfl]
          simp [neLines]
      · -- clean boundary: the carried line is glued onto the next chunk
        rw [splitLines_append_no_straddle lc jr hstr]
        have hgsingle : splitLines g = [g] :=
          splitLines_noTerm g (getLastD_splitLines_noTerm lc)
        have hnog : ¬(g.getLast? = some '\r' ∧ jr.head? = some '\n') := by
          rintro ⟨hl, -⟩
          exact ((getLastD_splitLines_noTerm lc) '\r' (mem_of_getLast?_eq hl)).2 rfl
        rw [splitLines_append_no_straddle g jr hnog, hgsingle, neLines_append]
        have hg2 : (splitLines lc).getLast?.getD [] = g := by
          rw [hg, List.getLastD_eq_getLast?]
        simp [neLines, List.filter_append, hg2]

theorem chunksByFuel_congr (n : ℕ) :
    ∀ f1 f2 (l : List Char), l.length ≤ f1 → l.length ≤ f2 →
    chunksByFuel n f1 l = chunksByFuel n f2 l := by
  intro f1
  induction f1 with
  | zero =>
    intro f2 l h1 h2
    have : l = [] := List.eq_nil_of_length_eq_zero (Nat.le_zero.mp h1)
    subst this
    cases f2 <;> rfl
  | succ f ih =>
    intro f2 l h1 h2
    cases l with
    | nil => cases f2 <;> rfl
    | cons c rest =>
      cases f2 with
      | zero => simp at h2
      | succ f2' =>
        rw [chunksByFuel, chunksByFuel]
        have hd : (rest.drop n).length ≤ f := by
          have := List.length_drop n rest
          simp at h1
          omega
        have hd2 : (rest.drop n).length ≤ f2' := by
          have := List.length_drop n rest
          simp at h2
          omega
        rw [ih f2' (rest.drop n) hd hd2]

theorem chunksBy_cons (n : ℕ) (c : Char) (rest : List Char) :
    chunksBy n (c :: rest) = (c :: rest.take n) :: chunksBy n (rest.drop n) := by
  rw [chunksBy, chunksBy, List.length_cons, chunksByFuel]
  rw [chunksByFuel_congr n rest.length (rest.drop n).length (rest.drop n) (by simp) le_rfl]

theorem chunksBy_flatten (n : ℕ) (l : List Char) : (chunksBy n l).flatten = l := by
  have key : ∀ len (l : List Char), l.length ≤ len → (chunksBy n l).flatten = l := by
    intro len
    induction len with
    | zero =>
      intro l h
      have : l = [] := List.eq_nil_of_length_eq_zero (Nat.le_zero.mp h)
      subst this
      rfl
    | succ k ih =>
      intro l h
      cases l with
      | nil => rfl
      | cons c rest =>
        rw [chunksBy_cons, List.flatten_cons]
        have hlt : (rest.drop n).length ≤ k := by
          have := List.length_drop n rest
          simp at h
          omega
        rw [ih (rest.drop n) hlt, List.cons_append, List.take_append_drop]
  exact key l.length l le_rfl

theorem neLines_chunkedLines_eq (C : ℕ) (_hC : 1 ≤ C) (file : List Char) :
    neLines (chunkedLines C file) = neLines (splitLines file) := by
  cases file with
  | nil => rfl
  | cons c rest =>
    have hne : chunksBy (C - 1) (c :: rest) ≠ [] := by
      rw [chunksBy_cons]
      exact List.cons_ne_nil _ _
    have := chunkedAux_filter (chunksBy (C - 1) (c :: rest)) hne []
    rw [List.nil_append, chunksBy_flatten] at this
    exact this

theorem extractDriver_nil : extractDriver [] = none := rfl

theorem filterMap_extractDriver_neLines (l : List (List Char)) :
    l.filterMap extractDriver = (neLines l).filterMap extractDriver := by
  induction l with
  | nil => rfl
  | cons x rest ih =>
    rcases x with _ | ⟨a, as⟩
    · simp only [List.filterMap_cons, extractDriver_nil, neLines, List.filter_cons,
        List.isEmpty_nil, Bool.not_true]
      exact ih
    · rw [List.filterMap_cons]
      have hne : neLines ((a :: as) :: rest) = (a :: as) :: neLines rest := by
        simp [neLines, List.filter_cons]
      rw [hne, List.filterMap_cons]
      cases extractDriver (a :: as) <;> rw [ih]

theorem neLines_cons_cancel {x : List Char} {A B : List (List Char)}
    (h : neLines (x :: A) = neLines (x :: B)) : neLines A = neLines B := by
  rcases x with _ | ⟨a, as⟩
  · simpa [neLines, List.filter_cons] using h
  · simp only [neLines, List.filter_cons, List.isEmpty_cons, Bool.not_false] at h
    simp only [neLines]
    exact List.cons_injective.eq_iff.mp h

theorem splitLines_two_of_term (s : List Char) (h : ∃ c ∈ s, c = '\n' ∨ c = '\r') :
    ∃ x y L, splitLines s = x :: y :: L := by
  rcases he : splitLines s with _ | ⟨x, L⟩
  · exact absurd he (splitLines_ne_nil s)
  rcases L with _ | ⟨y, L2⟩
  · exfalso
    obtain ⟨c, hc, hcr⟩ := h
    have hsx : s = x := splitLines_singleton he
    have := lines_noTerm s x (by rw [he]; exact List.mem_singleton_self x) c (hsx ▸ hc)
    rcases hcr with rfl | rfl
    · exact this.1 rfl
    · exact this.2 rfl
  · exact ⟨x, y, L2, rfl⟩

theorem insertSorted_length {α : Type} (le : α → α → Bool) (x : α) (l : List α) :
    (insertSorted le x l).length = l.length + 1 := by
  induction l with
  | nil => rfl
  | cons y rest ih =>
    rw [insertSorted]
    split
    · simp
    · simp [ih]

theorem sortBy_length {α : Type} (le : α → α → Bool) (l : List α) :
    (sortBy le l).length = l.length := by
  induction l with
  | nil => rfl
  | cons x rest ih =>
    rw [sortBy, List.foldr_cons]
    rw [show List.foldr (insertSorted le) [] rest = sortBy le rest from rfl]
    rw [insertSorted_length, ih, List.length_cons]

theorem mem_insertSorted {α : Type} (le : α → α → Bool) (x z : α) (l : List α) :
    z ∈ insertSorted le x l → z = x ∨ z ∈ l := by
  induction l with
  | nil => intro h; simpa [insertSorted] using h
  | cons y rest ih =>
    rw [insertSorted]
    split
    · intro h
      rcases List.mem_cons.mp h with rfl | h2
      · exact Or.inl rfl
      · exact Or.inr h2
    · intro h
      rcases List.mem_cons.mp h with rfl | h2
      · exact Or.inr (List.mem_cons_self z rest)
      · rcases ih h2 with rfl | h3
        · exact Or.inl rfl
        · exact Or.inr (List.mem_cons_of_mem y h3)

theorem insertSorted_pairwise {α : Type} (le : α → α → Bool)
    (htot : ∀ a b, le a b = true ∨ le b a = true)
    (htrans : ∀ a b c, le a b = true → le b c = true → le a c = true)
    (x : α) (l : List α) (h : l.Pairwise (fun a b => le a b = true)) :
    (insertSorted le x l).Pairwise (fun a b => le a b = true) := by
  induction l with
  | nil => simp [insertSorted]
  | cons y rest ih =>
    rw [insertSorted]
    split
    · rename_i hxy
      refine List.Pairwise.cons ?_ h
      intro z hz
      rcases List.mem_cons.mp hz with rfl | h2
      · exact hxy
      · exact htrans x y z hxy ((List.pairwise_cons.mp h).1 z h2)
    · rename_i hxy
      have hyx : le y x = true := by
        rcases htot x y with h1 | h1
        · exact absurd h1 hxy
        · exact h1
      obtain ⟨hy, hrest⟩ := List.pairwise_cons.mp h
      refine List.Pairwise.cons ?_ (ih hrest)
      intro z hz
      rcases mem_insertSorted le x z rest hz with rfl | h2
      · exact hyx
      · exact hy z h2

theorem sortBy_pairwise {α : Type} (le : α → α → Bool)
    (htot : ∀ a b, le a b = true ∨ le b a = true)
    (htrans : ∀ a b c, le a b = true → le b c = true → le a c = true)
    (l : List α) : (sortBy le l).Pairwise (fun a b => le a b = true) := by
  induction l with
  | nil => exact List.Pairwise.nil
  | cons x rest ih => exact insertSorted_pairwise le htot htrans x (sortBy le rest) ih

theorem updateT_map_fst (t : List Char) (f : TelemetryPoint → TelemetryPoint)
    (m : List (List Char × TelemetryPoint)) :
    (updateT t f m).map Prod.fst = m.map Prod.fst := by
  induction m with
  | nil => rfl
  | cons p rest ih =>
    obtain ⟨k, e⟩ := p
    rw [updateT]
    split
    · simp
    · simp [ih]

theorem lookupT_eq_none_iff (t : List Char) (m : List (List Char × TelemetryPoint)) :
    lookupT t m = none ↔ t ∉ m.map Prod.fst := by
  induction m with
  | nil => simp [lookupT]
  | cons p rest ih =>
    obtain ⟨k, e⟩ := p
    rw [lookupT]
    split
    · rename_i hk
      subst hk
      simp only [List.map_cons, List.mem_cons]
      constructor
      · intro h
        exact Option.noConfusion h
      · intro h
        exact (h (Or.inl trivial)).elim
    · rename_i hk
      simp only [List.map_cons, List.mem_cons]
      rw [ih]
      constructor
      · rintro hn (rfl | hmem)
        · exact hk rfl
        · exact hn hmem
      · intro hn hmem
        exact hn (Or.inr hmem)

theorem dedupFirstAux_congr (l : List (List Char)) :
    ∀ seen1 seen2, (∀ x, x ∈ seen1 ↔ x ∈ seen2) →
    dedupFirstAux seen1 l = dedupFirstAux seen2 l := by
  induction l with
  | nil => intro _ _ _; rfl
  | cons x rest ih =>
    intro seen1 seen2 hs
    rw [dedupFirstAux, dedupFirstAux]
    by_cases hx : x ∈ seen1
    · rw [if_pos hx, if_pos ((hs x).mp hx)]
      exact ih seen1 seen2 hs
    · rw [if_neg hx, if_neg (fun hc => hx ((hs x).mpr hc))]
      rw [ih (x :: seen1) (x :: seen2) (by intro z; simp [hs z])]

theorem aggregate_keys (pd : List Char → ℤ) :
    ∀ (rs : List RawSample) (m : List (List Char × TelemetryPoint)),
    (rs.foldl (aggStep pd) m).map Prod.fst =
      m.map Prod.fst ++ dedupFirstAux (m.map Prod.fst) (rs.map RawSample.t) := by
  intro rs
  induction rs with
  | nil => intro m; simp [dedupFirstAux]
  | cons r rest ih =>
    intro m
    rw [List.foldl_cons, List.map_cons, dedupFirstAux]
    rcases hl : lookupT r.t m with _ | e
    · have hnotin : r.t ∉ m.map Prod.fst := (lookupT_eq_none_iff r.t m).mp hl
      rw [if_neg hnotin]
      have hstep : aggStep pd m r = m ++ [(r.t, applyChan (emptyPoint (pd r.t)) r.n r.v)] := by
        rw [aggStep, hl]
      rw [hstep, ih]
      rw [List.map_append]
      simp only [List.map_cons, List.map_nil]
      rw [dedupFirstAux_congr (rest.map RawSample.t)
        (m.map Prod.fst ++ [r.t]) (r.t :: m.map Prod.fst)
        (fun z => by
          simp only [List.mem_append, List.mem_cons, List.not_mem_nil, or_false]
          exact or_comm)]
      simp only [List.append_assoc, List.singleton_append]
    · have hin : r.t ∈ m.map Prod.fst := by
        by_contra hc
        rw [← lookupT_eq_none_iff] at hc
        rw [hl] at hc
        exact Option.noConfusion hc
      rw [if_pos hin]
      have hstep : aggStep pd m r = updateT r.t (fun e2 => applyChan e2 r.n r.v) m := by
        rw [aggStep, hl]
      rw [hstep, ih, updateT_map_fst]

theorem parseRow_trailing :
    ∀ (id line0 : List Char) (r : RawSample), parseRow id line0 = some r →
    ∃ s, afterLastComma (jsTrim line0) = some s ∧ jsTrim s = id := by
  intro id line0 r h
  rw [parseRow] at h
  split at h
  · exact Option.noConfusion h
  · rcases ha : afterLastComma (jsTrim line0) with _ | s
    · rw [ha] at h
      exact Option.noConfusion h
    · rw [ha] at h
      simp only at h
      split at h
      · exact Option.noConfusion h
      · rename_i hid
        exact ⟨s, rfl, not_not.mp hid⟩

theorem interpolate_length (data : List ℚ) (T : ℕ) : (interpolate data T).length = T := by
  rw [interpolate]
  split
  · exact List.length_replicate T 0
  · rw [List.length_map, List.length_range]

theorem brakeSegsGo_mem :
    ∀ (l cur : List Pt), (∀ p ∈ cur, 10 < p.brake) →
    ∀ s ∈ brakeSegsGo l cur, 6 ≤ s.length ∧ ∀ p ∈ s, 10 < p.brake := by
  intro l
  induction l with
  | nil =>
    intro cur hcur s hs
    rw [brakeSegsGo] at hs
    split at hs
    · rename_i hlen
      rw [List.mem_singleton] at hs
      subst hs
      refine ⟨by simpa using hlen, ?_⟩
      intro p hp
      exact hcur p (List.mem_reverse.mp hp)
    · exact absurd hs (List.not_mem_nil s)
  | cons p rest ih =>
    intro cur hcur s hs
    rw [brakeSegsGo] at hs
    split at hs
    · rename_i hp
      refine ih (p :: cur) ?_ s hs
      intro q hq
      rcases List.mem_cons.mp hq with rfl | h2
      · exact hp
      · exact hcur q h2
    · split at hs
      · rename_i hlen
        rcases List.mem_cons.mp hs with rfl | h2
        · refine ⟨by simpa using hlen, ?_⟩
          intro q hq
          exact hcur q (List.mem_reverse.mp hq)
        · exact ih [] (by simp) s h2
      · exact ih [] (by simp) s hs

theorem foldl_peak (rest : List (List Pt)) (s : List Pt) :
    (rest.foldl (fun prev cur => if peakBrake prev < peakBrake cur then cur else prev) s
        ∈ s :: rest) ∧
    peakBrake s ≤ peakBrake
      (rest.foldl (fun prev cur => if peakBrake prev < peakBrake cur then cur else prev) s) ∧
    (∀ u ∈ rest, peakBrake u ≤ peakBrake
      (rest.foldl (fun prev cur => if peakBrake prev < peakBrake cur then cur else prev) s)) ∧
    ∃ pre post,
      s :: rest = pre ++
        (rest.foldl (fun prev cur => if peakBrake prev < peakBrake cur then cur else prev) s)
          :: post ∧
      ∀ u ∈ pre, peakBrake u < peakBrake
        (rest.foldl (fun prev cur => if peakBrake prev < peakBrake cur then cur else prev) s) := by
  induction rest generalizing s with
  | nil => exact ⟨by simp, le_rfl, by simp, [], [], rfl, by simp⟩
  | cons cur rest2 ih =>
    rw [List.foldl_cons]
    by_cases hc : peakBrake s < peakBrake cur
    · rw [if_pos hc]
      obtain ⟨hmem, hle, hall, pre, post, hdec, hpre⟩ := ih cur
      refine ⟨?_, le_trans (le_of_lt hc) hle, ?_, s :: pre, post, ?_, ?_⟩
      · exact List.mem_cons_of_mem s hmem
      · intro u hu
        rcases List.mem_cons.mp hu with rfl | h2
        · exact hle
        · exact hall u h2
      · rw [List.cons_append, ← hdec]
      · intro u hu
        rcases List.mem_cons.mp hu with rfl | h2
        · exact lt_of_lt_of_le hc hle
        · exact hpre u h2
    · rw [if_neg hc]
      obtain ⟨hmem, hle, hall, pre, post, hdec, hpre⟩ := ih s
      have hcs : peakBrake cur ≤ peakBrake s := le_of_not_lt hc
      refine ⟨?_, hle, ?_, ?_⟩
      · rcases List.mem_cons.mp hmem with h1 | h2
        · rw [h1]
          exact List.mem_cons_self s _
        · exact List.mem_cons_of_mem s (List.mem_cons_of_mem cur h2)
      · intro u hu
        rcases List.mem_cons.mp hu with rfl | h2
        · exact le_trans hcs hle
        · exact hall u h2
      · rcases pre with _ | ⟨p0, pre2⟩
        · simp only [List.nil_append] at hdec
          obtain ⟨hb, hpost⟩ := List.cons_eq_cons.mp hdec
          refine ⟨[], cur :: rest2, ?_, by simp⟩
          rw [List.nil_append, ← hb]
        · rw [List.cons_append] at hdec
          obtain ⟨hb, hrest2⟩ := List.cons_eq_cons.mp hdec
          subst hb
          refine ⟨s :: cur :: pre2, post, ?_, ?_⟩
          · rw [List.cons_append, List.cons_append, ← hrest2]
          · intro u hu
            rcases List.mem_cons.mp hu with rfl | hu2
            · exact hpre u (List.mem_cons_self u pre2)
            · rcases List.mem_cons.mp hu2 with rfl | hu3
              · exact lt_of_le_of_lt hcs
                  (hpre s (List.mem_cons_self s pre2))
              · exact hpre u (List.mem_cons_of_mem s hu3)

theorem countShift_sum_le (p c : TSample) (k : ShiftCounters)
    (h : k.optimal + k.early + k.late ≤ k.total) :
    (countShift p c k).optimal + (countShift p c k).early + (countShift p c k).late ≤
      (countShift p c k).total := by
  rw [countShift]
  by_cases h1 : c.gear > p.gear ∧ p.gear > 0 ∧ c.gear - p.gear = 1
  · rw [if_pos h1]
    rcases optimalShiftRPM p.gear c.gear with _ | r
    · simp only []
      omega
    · simp only []
      split_ifs <;> simp only [] <;> omega
  · rw [if_neg h1]
    by_cases h2 : c.gear < p.gear ∧ p.gear - c.gear = 1
    · rw [if_pos h2]
      split_ifs <;> simp only [] <;> omega
    · rw [if_neg h2]
      exact h

/-- C1 (amended): for every chunk size of at least one byte, chunk-by-chunk
reading with the trailing partial line carried forward emits the same ordered
sequence of nonempty lines as splitting the whole file at once on CRLF, LF
and CR; exact equality of the full line sequences can fail only by extra
empty lines, inserted when a chunk boundary separates the CR and LF of a
CRLF terminator. Empty lines are
skipped by every consumer of the reader in the code. -/
theorem chunkedReader_refines_wholeFile (C : ℕ) (hC : 1 ≤ C) (file : List Char) :
    neLines (chunkedLines C file) = neLines (splitLines file) :=
  neLines_chunkedLines_eq C hC file

/-- C1 counterexample: with chunk size 2 the file "a\r\nb" is cut between
the CR and the LF, and the chunked reader emits an extra empty line, so the
raw line sequences differ. -/
theorem chunkedReader_crlf_counterexample :
    chunkedLines 2 "a\r\nb".toList ≠ splitLines "a\r\nb".toList := by decide

/-- C1 witness. -/
theorem chunkedReader_refines_wholeFile_witness :
    1 ≤ 2 ∧ neLines (chunkedLines 2 "a\r\nb".toList) = neLines (splitLines "a\r\nb".toList) :=
  ⟨by decide, chunkedReader_refines_wholeFile 2 (by decide) "a\r\nb".toList⟩

/-- C2: every row the per-driver assembler accepts has its trailing field
(the trimmed substring after the last comma) equal to the target driver id;
the output has exactly one TelemetryPoint per distinct raw timestamp among
the accepted rows; and the output is sorted ascending by parsed timestamp.
The date parser `new Date(s).getTime()` is the parameter `pd`. -/
theorem assembler_invariants (pd : List Char → ℤ) (C : ℕ) (file id : List Char) :
    (∀ line r, parseRow id line = some r →
      ∃ s, afterLastComma (jsTrim line) = some s ∧ jsTrim s = id) ∧
    (parseTelemetryForDriver pd C file id).length =
      (dedupFirst (((scanLinesD C file).filterMap (parseRow id)).map RawSample.t)).length ∧
    (parseTelemetryForDriver pd C file id).Pairwise
      (fun p q => p.timestamp ≤ q.timestamp) := by
  refine ⟨fun line r h => parseRow_trailing id line r h, ?_, ?_⟩
  · rw [parseTelemetryForDriver, sortBy_length, List.length_map]
    have hk := aggregate_keys pd ((scanLinesD C file).filterMap (parseRow id)) []
    simp only [List.map_nil, List.nil_append] at hk
    rw [show dedupFirst (((scanLinesD C file).filterMap (parseRow id)).map RawSample.t) =
      dedupFirstAux [] (((scanLinesD C file).filterMap (parseRow id)).map RawSample.t) from rfl]
    rw [← hk, List.length_map]
    rfl
  · have hp := sortBy_pairwise tsLe
      (fun a b => by
        rcases le_total a.timestamp b.timestamp with h | h
        · exact Or.inl (decide_eq_true h)
        · exact Or.inr (decide_eq_true h))
      (fun a b c hab hbc => by
        exact decide_eq_true (le_trans (of_decide_eq_true hab) (of_decide_eq_true hbc)))
      ((aggregateRaws pd ((scanLinesD C file).filterMap (parseRow id))).map Prod.snd)
    rw [parseTelemetryForDriver]
    exact hp.imp (fun h => of_decide_eq_true h)

/-- C2 witness. -/
theorem assembler_invariants_witness :
    ∃ s, afterLastComma (jsTrim "a,b,c,d,e,f,g,h,speed,120,1000,14".toList) = some s ∧
      jsTrim s = "14".toList :=
  (assembler_invariants (fun _ => 0) 4 [] "14".toList).1
    "a,b,c,d,e,f,g,h,speed,120,1000,14".toList
    ⟨"1000".toList, "speed".toList, (jsParseFloatQ "120".toList).getD 0⟩ rfl

/-- C3: the channel dictionary maps speed to speed, nmot to rpm, gear to
gear, ath to throttle divided by 100, pbrake_f to brake divided by 100, and
Steering_Angle to steering; any other channel name leaves the point
unchanged; a repeated channel name at the same timestamp overwrites the
earlier value; and two samples sharing a timestamp populate two fields of
one aggregated point. -/
theorem channel_dictionary (pd : List Char → ℤ) (e : TelemetryPoint) (t n : List Char)
    (v v1 v2 : ℚ) :
    (applyChan e "speed".toList v).speed = some v ∧
    (applyChan e "nmot".toList v).rpm = some v ∧
    (applyChan e "gear".toList v).gear = some v ∧
    (applyChan e "ath".toList v).throttle = some (v / 100) ∧
    (applyChan e "pbrake_f".toList v).brake = some (v / 100) ∧
    (applyChan e "Steering_Angle".toList v).steering = some v ∧
    (n ∉ ["speed".toList, "nmot".toList, "gear".toList, "ath".toList, "pbrake_f".toList,
      "Steering_Angle".toList] → applyChan e n v = e) ∧
    applyChan (applyChan e n v1) n v2 = applyChan e n v2 ∧
    aggregateRaws pd [⟨t, "speed".toList, v1⟩, ⟨t, "nmot".toList, v2⟩] =
      [(t, { emptyPoint (pd t) with speed := some v1, rpm := some v2 })] := by
  refine ⟨rfl, rfl, rfl, rfl, rfl, rfl, ?_, ?_, ?_⟩
  · intro hmem
    rw [applyChan]
    split_ifs with h1 h2 h3 h4 h5 h6
    · exact (hmem (by rw [h1]; simp)).elim
    · exact (hmem (by rw [h2]; simp)).elim
    · exact (hmem (by rw [h3]; simp)).elim
    · exact (hmem (by rw [h4]; simp)).elim
    · exact (hmem (by rw [h5]; simp)).elim
    · exact (hmem (by rw [h6]; simp)).elim
    · rfl
  · simp only [applyChan]
    split_ifs <;> rfl
  · simp [aggregateRaws, aggStep, lookupT, updateT, applyChan, emptyPoint]

/-- C3 witness. -/
theorem channel_dictionary_witness :
    applyChan (emptyPoint 0) "lap_dist".toList 7 = emptyPoint 0 :=
  (channel_dictionary (fun _ => 0) (emptyPoint 0) [] "lap_dist".toList 7 7 7).2.2.2.2.2.2.1
    (by decide)

/-- C4 (amended): provided the first chunk contains a line terminator (the
header line ends inside it) or the whole file fits into one chunk, chunked
driver discovery returns exactly the whole-file result: the numerically
sorted distinct validated trailing fields of the data lines with the header
line skipped. Without that proviso the header line is carried over as
leftover of the first chunk and later processed as a data line. -/
theorem scanDrivers_eq_wholeFile (C : ℕ) (hC : 1 ≤ C) (file : List Char)
    (h : (∃ ch ∈ file.take C, ch = '\n' ∨ ch = '\r') ∨ file.length ≤ C) :
    scanTelemetryDrivers C file = wholeFileDrivers file := by
  obtain ⟨C', rfl⟩ : ∃ C', C = C' + 1 := ⟨C - 1, (Nat.succ_pred_eq_of_pos hC).symm⟩
  cases file with
  | nil => rfl
  | cons c rest =>
    rcases hrc : chunksBy C' (rest.drop C') with _ | ⟨d, ds⟩
    · -- single chunk: the whole file fits in the first chunk
      have hdrop : rest.drop C' = [] := by
        rcases hz : rest.drop C' with _ | ⟨z, zs⟩
        · rfl
        · rw [hz, chunksBy_cons] at hrc
          exact absurd hrc (List.cons_ne_nil _ _)
      have htake : rest.take C' = rest := by
        have h2 := congrArg List.length hdrop
        rw [List.length_drop] at h2
        simp only [List.length_nil] at h2
        exact List.take_of_length_le (by omega)
      have hblocks : chunkedBlocks (C' + 1) (c :: rest) = [splitLines (c :: rest)] := by
        unfold chunkedBlocks
        rw [Nat.add_sub_cancel, chunksBy_cons, hrc, htake]
        rfl
      unfold scanTelemetryDrivers wholeFileDrivers scanLinesD
      rw [hblocks]
      simp only [List.flatten_nil, List.append_nil]
    · -- at least two chunks: the header line must end inside the first chunk
      have hterm : ∃ ch ∈ (c :: rest.take C'), ch = '\n' ∨ ch = '\r' := by
        rcases h with hterm | hlen
        · rw [List.take_succ_cons] at hterm
          exact hterm
        · exfalso
          have hdrop : rest.drop C' = [] := by
            apply List.drop_eq_nil_of_le
            simp at hlen
            omega
          rw [hdrop] at hrc
          exact absurd hrc.symm (List.cons_ne_nil _ _)
      obtain ⟨x, y, L, hxy⟩ := splitLines_two_of_term _ hterm
      have hblocks : chunkedBlocks (C' + 1) (c :: rest) =
          (splitLines (c :: rest.take C')).dropLast ::
            chunkedLinesAux ((splitLines (c :: rest.take C')).getLastD []) (d :: ds) := by
        unfold chunkedBlocks
        rw [Nat.add_sub_cancel, chunksBy_cons, hrc]
        rfl
      have hscan : scanLinesD (C' + 1) (c :: rest) =
          (splitLines (c :: rest.take C')).dropLast.drop 1 ++
            (chunkedLinesAux ((splitLines (c :: rest.take C')).getLastD []) (d :: ds)).flatten := by
        unfold scanLinesD
        rw [hblocks]
      have hflat : chunkedLines (C' + 1) (c :: rest) =
          (splitLines (c :: rest.take C')).dropLast ++
            (chunkedLinesAux ((splitLines (c :: rest.take C')).getLastD []) (d :: ds)).flatten := by
        unfold chunkedLines
        rw [hblocks]
        simp
      rw [hxy, List.dropLast_cons₂] at hscan hflat
      simp only [List.drop_succ_cons, List.drop_zero] at hscan
      have hfile : (c :: rest) = (c :: rest.take C') ++ rest.drop C' := by
        rw [List.cons_append, List.take_append_drop]
      obtain ⟨T, hT⟩ : ∃ T, splitLines (c :: rest) = x :: T := by
        rw [hfile]
        by_cases hstr : (c :: rest.take C').getLast? = some '\r' ∧
            (rest.drop C').head? = some '\n'
        · rw [splitLines_append_straddle _ _ hstr.1 hstr.2, hxy, List.dropLast_cons₂]
          exact ⟨_, rfl⟩
        · rw [splitLines_append_no_straddle _ _ hstr, hxy, List.dropLast_cons₂]
          exact ⟨_, rfl⟩
      have hfilter := neLines_chunkedLines_eq (C' + 1) (by omega) (c :: rest)
      rw [hflat, hT, List.cons_append] at hfilter
      have hcancel := neLines_cons_cancel hfilter
      unfold scanTelemetryDrivers wholeFileDrivers
      rw [hscan, hT, List.drop_succ_cons, List.drop_zero, filterMap_extractDriver_neLines,
        hcancel, ← filterMap_extractDriver_neLines T]

/-- C4 counterexample: with chunk size 1 the header line never completes
inside the first chunk, so its numeric trailing field "9" is collected as a
driver id. -/
theorem scanDrivers_header_boundary :
    scanTelemetryDrivers 1 "h,9\na,3\n".toList ≠ wholeFileDrivers "h,9\na,3\n".toList ∧
    scanTelemetryDrivers 1 "h,9\na,3\n".toList = ["3".toList, "9".toList] ∧
    wholeFileDrivers "h,9\na,3\n".toList = ["3".toList] := by decide

/-- C4 witness: a file with ids 3, 14 and 22 scattered over several rows
and chunks yields exactly ["3", "14", "22"]. -/
theorem scanDrivers_eq_wholeFile_witness :
    scanTelemetryDrivers 4 "t,v\nx,3\ny,14\nz,22\nw,14\n".toList =
      ["3".toList, "14".toList, "22".toList] := by
  have h := scanDrivers_eq_wholeFile 4 (by decide) "t,v\nx,3\ny,14\nz,22\nw,14\n".toList
    (Or.inl (by decide))
  rw [h]
  decide

/-- C5: lap slicing returns the empty list when the requested lap number is
absent; otherwise it returns exactly the points with timestamp in
[start, end) where end is the next lap's start when that lap exists and
start + durationSeconds * 1000 otherwise; for laps starting at 0, 100000,
205000 and 300000, lap 3 selects precisely 205000 <= timestamp < 300000. -/
theorem getLapTelemetry_spec (tel : List Pt) (laps : List LapData) (n : ℤ) :
    (laps.find? (fun l => decide (l.lap = n)) = none → getLapTelemetry tel laps n = []) ∧
    (∀ cur, laps.find? (fun l => decide (l.lap = n)) = some cur →
      getLapTelemetry tel laps n = tel.filter (fun p =>
        decide (cur.timestamp ≤ p.timestamp) && decide (p.timestamp < lapEnd laps n cur))) ∧
    getLapTelemetry tel exLaps 3 = tel.filter (fun p =>
      decide ((205000 : ℚ) ≤ p.timestamp) && decide (p.timestamp < (300000 : ℚ))) := by
  refine ⟨?_, ?_, ?_⟩
  · intro h
    rw [getLapTelemetry, h]
  · intro cur hc
    rw [getLapTelemetry, hc]
    rfl
  · rfl

/-- C5 witness. -/
theorem getLapTelemetry_witness :
    getLapTelemetry [] exLaps 7 = [] ∧
    getLapTelemetry [] exLaps 3 = [] := by
  refine ⟨(getLapTelemetry_spec [] exLaps 7).1 (by decide), ?_⟩
  have h := (getLapTelemetry_spec [] exLaps 3).2.1 ⟨3, 95, 205000⟩ (by decide)
  rw [h]
  rfl

/-- C6: every braking segment is a run of at least 6 consecutive points
with brake above 10; when no run qualifies the result is empty; otherwise
the selected segment is a member of the runs, attains the maximal peak brake
value, is the first run attaining it, and the result is that run's brake
trace resampled to exactly 100 points. -/
theorem braking_segment_selection (l : List Pt) :
    (∀ s ∈ brakeSegments l, 6 ≤ s.length ∧ ∀ p ∈ s, 10 < p.brake) ∧
    (brakeSegments l = [] → getSignificantBrakingSegment l = []) ∧
    (∀ s0 rest, brakeSegments l = s0 :: rest →
      ∃ best, bestByPeak (brakeSegments l) = some best ∧
        best ∈ brakeSegments l ∧
        (∀ s ∈ brakeSegments l, peakBrake s ≤ peakBrake best) ∧
        (∃ pre post, brakeSegments l = pre ++ best :: post ∧
          ∀ s ∈ pre, peakBrake s < peakBrake best) ∧
        getSignificantBrakingSegment l = interpolate (best.map (fun p => p.brake)) 100 ∧
        (getSignificantBrakingSegment l).length = 100) := by
  refine ⟨brakeSegsGo_mem l [] (by simp), ?_, ?_⟩
  · intro h
    rw [getSignificantBrakingSegment, h]
    rfl
  · intro s0 rest hsr
    obtain ⟨hmem, hle0, hall, pre, post, hdec, hpre⟩ := foldl_peak rest s0
    refine ⟨rest.foldl (fun prev cur => if peakBrake prev < peakBrake cur then cur else prev) s0,
      ?_, ?_, ?_, ?_, ?_, ?_⟩
    · rw [hsr, bestByPeak]
    · rw [hsr]
      exact hmem
    · intro s hs
      rw [hsr] at hs
      rcases List.mem_cons.mp hs with rfl | h2
      · exact hle0
      · exact hall s h2
    · exact ⟨pre, post, by rw [hsr, hdec], hpre⟩
    · rw [getSignificantBrakingSegment, hsr, bestByPeak]
    · rw [getSignificantBrakingSegment, hsr, bestByPeak]
      exact interpolate_length _ 100

/-- C6 witness. -/
theorem braking_segment_selection_witness :
    getSignificantBrakingSegment [] = [] ∧
    (∃ best, bestByPeak (brakeSegments exBrakeRun) = some best ∧
      best ∈ brakeSegments exBrakeRun ∧
      (∀ s ∈ brakeSegments exBrakeRun, peakBrake s ≤ peakBrake best) ∧
      (∃ pre post, brakeSegments exBrakeRun = pre ++ best :: post ∧
        ∀ s ∈ pre, peakBrake s < peakBrake best) ∧
      getSignificantBrakingSegment exBrakeRun =
        interpolate (best.map (fun p => p.brake)) 100 ∧
      (getSignificantBrakingSegment exBrakeRun).length = 100) :=
  ⟨(braking_segment_selection []).2.1 rfl,
   (braking_segment_selection exBrakeRun).2.2 exBrakeRun [] (by decide)⟩

/-- C7: the interpolation primitive always returns exactly the target
number of values, returns all zeros when the input has fewer than two
values, and interpolating [0, 10] to length 3 yields [0, 5, 10]. -/
theorem interpolate_spec (data : List ℚ) (T : ℕ) :
    (interpolate data T).length = T ∧
    (data.length < 2 → interpolate data T = List.replicate T 0) ∧
    interpolate [0, 10] 3 = [0, 5, 10] := by
  refine ⟨interpolate_length data T, ?_, ?_⟩
  · intro h
    rw [interpolate, if_pos h]
  · rw [interpolate]
    rw [if_neg (by norm_num)]
    rw [show List.range 3 = [0, 1, 2] from rfl]
    simp only [List.map_cons, List.map_nil, List.cons.injEq, and_true]
    norm_num
    have hc : ⌈(1 : ℚ)/2⌉ = 1 := by
      rw [Int.ceil_eq_iff]
      norm_num
    rw [hc]
    norm_num

/-- C7 witness. -/
theorem interpolate_spec_witness :
    interpolate [] 5 = List.replicate 5 0 :=
  (interpolate_spec [] 5).2.1 (by decide)

/-- C8: an upshift by exactly one gear whose from-to pair is in the
optimal-shift table is counted as optimal when the previous RPM is within
500 of the table value, as early when below it by more than 500, and as late
when above it by more than 500. -/
theorem upshift_classification (p c : TSample) (k : ShiftCounters) (r : ℚ)
    (hg : c.gear = p.gear + 1) (hp : 0 < p.gear)
    (hr : optimalShiftRPM p.gear c.gear = some r) :
    (|p.rpm - r| ≤ 500 → countShift p c k =
      { k with total := k.total + 1, optimal := k.optimal + 1 }) ∧
    (p.rpm < r - 500 → countShift p c k =
      { k with total := k.total + 1, early := k.early + 1 }) ∧
    (r + 500 < p.rpm → countShift p c k =
      { k with total := k.total + 1, late := k.late + 1 }) := by
  have hcond : c.gear > p.gear ∧ p.gear > 0 ∧ c.gear - p.gear = 1 :=
    ⟨by rw [hg]; linarith, hp, by rw [hg]; ring⟩
  refine ⟨?_, ?_, ?_⟩
  · intro habs
    rw [countShift, if_pos hcond, hr]
    simp only [SHIFT_TOLERANCE_RPM]
    rw [if_pos habs]
  · intro hearly
    have hne : ¬(|p.rpm - r| ≤ (500 : ℚ)) := by
      rw [abs_le, not_and_or]
      left
      rw [not_le]
      linarith
    rw [countShift, if_pos hcond, hr]
    simp only [SHIFT_TOLERANCE_RPM]
    rw [if_neg hne, if_pos (show p.rpm - r < -500 by linarith)]
  · intro hlate
    have hne : ¬(|p.rpm - r| ≤ (500 : ℚ)) := by
      rw [abs_le, not_and_or]
      right
      rw [not_le]
      linarith
    rw [countShift, if_pos hcond, hr]
    simp only [SHIFT_TOLERANCE_RPM]
    rw [if_neg hne, if_neg (show ¬(p.rpm - r < -500) by linarith),
      if_pos (show p.rpm - r > 500 by linarith)]

/-- C8 witness: a 2-to-3 upshift at previous RPM 7147 is optimal, at 6000
early, at 7800 late (table value 7147, tolerance 500). -/
theorem upshift_classification_witness :
    countShift ⟨0, 2, 7147⟩ ⟨0, 3, 0⟩ ⟨0, 0, 0, 0⟩ =
      { total := 1, optimal := 1, early := 0, late := 0 } ∧
    countShift ⟨0, 2, 6000⟩ ⟨0, 3, 0⟩ ⟨0, 0, 0, 0⟩ =
      { total := 1, optimal := 0, early := 1, late := 0 } ∧
    countShift ⟨0, 2, 7800⟩ ⟨0, 3, 0⟩ ⟨0, 0, 0, 0⟩ =
      { total := 1, optimal := 0, early := 0, late := 1 } :=
  ⟨(upshift_classification ⟨0, 2, 7147⟩ ⟨0, 3, 0⟩ ⟨0, 0, 0, 0⟩ 7147
      (by norm_num) (by norm_num) (by decide)).1 (by norm_num),
   (upshift_classification ⟨0, 2, 6000⟩ ⟨0, 3, 0⟩ ⟨0, 0, 0, 0⟩ 7147
      (by norm_num) (by norm_num) (by decide)).2.1 (by norm_num),
   (upshift_classification ⟨0, 2, 7800⟩ ⟨0, 3, 0⟩ ⟨0, 0, 0, 0⟩ 7147
      (by norm_num) (by norm_num) (by decide)).2.2 (by norm_num)⟩

/-- C9 (amended): a weather data row with fewer than 4 semicolon-separated
fields is skipped; every produced WeatherSample comes from a row with at
least 4 fields and decodes its fields from columns 1, 2, 3, 4 and 8 of that
row, where columns 1-3 always exist but humidity (column 4) and rain
(column 8) are absent when the row is too short for them - such rows are
not skipped, contrary to the claim as stated. -/
theorem parseWeather_fields (pd : List Char → ℤ) (text : List Char) :
    ∀ rec ∈ parseWeather pd text, ∃ line ∈ (splitLines text).drop 1,
      jsTrim line ≠ [] ∧
      4 ≤ ((jsTrim line).splitOn ';').length ∧
      (((jsTrim line).splitOn ';')[1]?).isSome ∧
      (((jsTrim line).splitOn ';')[2]?).isSome ∧
      (((jsTrim line).splitOn ';')[3]?).isSome ∧
      rec.timestamp = (((jsTrim line).splitOn ';')[1]?).map pd ∧
      rec.airTemp = (((jsTrim line).splitOn ';')[2]?).bind jsParseFloatQ ∧
      rec.trackTemp = (((jsTrim line).splitOn ';')[3]?).bind jsParseFloatQ ∧
      rec.humidity = (((jsTrim line).splitOn ';')[4]?).bind jsParseFloatQ ∧
      rec.rain = (((jsTrim line).splitOn ';')[8]?).bind jsParseFloatQ := by
  intro rec hrec
  rw [parseWeather] at hrec
  obtain ⟨line, hline, hp⟩ := List.mem_filterMap.mp hrec
  refine ⟨line, hline, ?_⟩
  rw [parseWeatherLine] at hp
  split at hp
  · exact Option.noConfusion hp
  · rename_i hne
    dsimp only at hp
    split at hp
    · exact Option.noConfusion hp
    · rename_i hlen
      rw [not_lt] at hlen
      have hr := Option.some.inj hp
      subst hr
      refine ⟨hne, hlen, ?_, ?_, ?_, rfl, rfl, rfl, rfl, rfl⟩
      · have h1 : 1 < (List.splitOn ';' (jsTrim line)).length := by omega
        simp [List.getElem?_eq_getElem h1]
      · have h2 : 2 < (List.splitOn ';' (jsTrim line)).length := by omega
        simp [List.getElem?_eq_getElem h2]
      · have h3 : 3 < (List.splitOn ';' (jsTrim line)).length := by omega
        simp [List.getElem?_eq_getElem h3]

/-- C9 counterexample: a row with exactly 4 fields is not skipped; it
produces a record whose humidity and rain were never decoded. -/
theorem parseWeather_short_row :
    parseWeather (fun _ => 0) "h\na;b;c;d".toList =
      [{ timestamp := some 0, airTemp := none, trackTemp := none,
         humidity := none, rain := none }] := by decide

/-- C9 witness. -/
theorem parseWeather_fields_witness :
    ∃ line ∈ (splitLines "h\na;b;c;d;e;f;g;h;i".toList).drop 1,
      jsTrim line ≠ [] ∧
      4 ≤ ((jsTrim line).splitOn ';').length ∧
      (((jsTrim line).splitOn ';')[1]?).isSome ∧
      (((jsTrim line).splitOn ';')[2]?).isSome ∧
      (((jsTrim line).splitOn ';')[3]?).isSome ∧
      (some (0 : ℤ) : Option ℤ) = (((jsTrim line).splitOn ';')[1]?).map (fun _ => (0 : ℤ)) ∧
      (none : Option ℚ) = (((jsTrim line).splitOn ';')[2]?).bind jsParseFloatQ ∧
      (none : Option ℚ) = (((jsTrim line).splitOn ';')[3]?).bind jsParseFloatQ ∧
      (none : Option ℚ) = (((jsTrim line).splitOn ';')[4]?).bind jsParseFloatQ ∧
      (none : Option ℚ) = (((jsTrim line).splitOn ';')[8]?).bind jsParseFloatQ :=
  parseWeather_fields (fun _ => 0) "h\na;b;c;d;e;f;g;h;i".toList
    ⟨some 0, none, none, none, none⟩ (by decide)

/-- C10 (amended): the gear-efficiency counters always satisfy
optimal + early + late <= total; the inequality is strict for an upshift by
one gear from a positive gear whose from-to pair is absent from the table
(such as 4 to 5), which increments only total; but an upshift from gear 0
to 1 is not counted at all, contrary to the claim as stated. -/
theorem report_counter_invariant (history : List TSample) :
    (generateReportCounters history).optimal + (generateReportCounters history).early +
        (generateReportCounters history).late ≤ (generateReportCounters history).total ∧
    generateReportCounters [⟨0, 4, 5000⟩, ⟨0, 5, 5000⟩] =
      { total := 1, optimal := 0, early := 0, late := 0 } ∧
    generateReportCounters [⟨0, 0, 5000⟩, ⟨0, 1, 5000⟩] =
      { total := 0, optimal := 0, early := 0, late := 0 } := by
  refine ⟨?_, ?_, ?_⟩
  · have key : ∀ (ps : List (TSample × TSample)) (k : ShiftCounters),
        k.optimal + k.early + k.late ≤ k.total →
        (ps.foldl (fun k2 pc => countShift pc.1 pc.2 k2) k).optimal +
          (ps.foldl (fun k2 pc => countShift pc.1 pc.2 k2) k).early +
          (ps.foldl (fun k2 pc => countShift pc.1 pc.2 k2) k).late ≤
          (ps.foldl (fun k2 pc => countShift pc.1 pc.2 k2) k).total := by
      intro ps
      induction ps with
      | nil => intro k hk; exact hk
      | cons pc rest ih =>
        intro k hk
        rw [List.foldl_cons]
        exact ih (countShift pc.1 pc.2 k) (countShift_sum_le pc.1 pc.2 k hk)
    exact key _ _ (by simp)
  · norm_num [generateReportCounters, countShift, optimalShiftRPM, SHIFT_TOLERANCE_RPM,
      DOWN_SHIFT_EARLY_MAX, DOWN_SHIFT_LATE_MIN]
  · norm_num [generateReportCounters, countShift, optimalShiftRPM, SHIFT_TOLERANCE_RPM,
      DOWN_SHIFT_EARLY_MAX, DOWN_SHIFT_LATE_MIN]

/-- C10 counterexample: a 0-to-1 upshift does not increment the total
counter, although the claim says every one-gear upshift outside the table
increments it. -/
theorem report_zero_upshift_counterexample :
    ¬ (0 < (generateReportCounters [⟨0, 0, 5000⟩, ⟨0, 1, 5000⟩]).total) := by decide
